import Mathlib

/-!
Verification of `src/avatar.py` (ImageGrid-Splitter).

The pipeline `extract_avatars_from_grid` detects circles (Hough primary,
contour-fit fallback), rounds the detected float circles with `np.around`
and casts them to `np.uint16`, sorts them into reading order, and
composites each into a square RGBA avatar with a circular alpha mask.

All machine integers appearing in the pipeline are numpy `uint16`
values, so subtraction and addition on them are modulo `2^16`.
-/

namespace AvatarGrid

/-- The modulus `2^16` of numpy `uint16` arithmetic. -/
def U16 : ℕ := 65536

/-- numpy `uint16` subtraction: wraps modulo `2^16`.
Source: every `-` on circle coordinates in `extract_avatars_from_grid`
(the values come from `np.uint16(np.around(circles))`, line 55). -/
def sub16 (a b : ℕ) : ℕ := (a % U16 + (U16 - b % U16)) % U16

/-- numpy `uint16` addition: wraps modulo `2^16`. -/
def add16 (a b : ℕ) : ℕ := (a + b) % U16

/-- A detected circle after `np.uint16(np.around(circles))` (line 55):
center `(x, y)` and radius `r`, all `uint16` values. -/
structure Circ where
  x : ℕ
  y : ℕ
  r : ℕ
deriving DecidableEq, Repr

/-- A detected circle as produced by either detector, before rounding:
float center and radius (modelled as rationals). -/
structure CircF where
  x : ℚ
  y : ℚ
  r : ℚ
deriving DecidableEq

/-- Model of `np.around`: round half to even (banker's rounding), numpy's default. -/
def roundHalfEven (q : ℚ) : ℤ :=
  if q - ⌊q⌋ < 1/2 then ⌊q⌋
  else if 1/2 < q - ⌊q⌋ then ⌊q⌋ + 1
  else if ⌊q⌋ % 2 = 0 then ⌊q⌋ else ⌊q⌋ + 1

/-- Model of `np.uint16(np.around(v))` for a single (nonnegative) value:
round half to even, then reduce modulo `2^16` (line 55). -/
def toUint16 (q : ℚ) : ℕ := (roundHalfEven q).toNat % U16

/-- Line 55: round all three circle parameters and cast to `uint16`. -/
def roundCirc (c : CircF) : Circ := ⟨toUint16 c.x, toUint16 c.y, toUint16 c.r⟩

/-! ## Circle sequencer (lines 57-91) -/

/-- Line 63 sort key `(c[1], c[0])`: lexicographic on `(y, x)`. -/
def lexYX (c d : Circ) : Prop := c.y < d.y ∨ (c.y = d.y ∧ c.x ≤ d.x)

instance : DecidableRel lexYX := fun c d => by unfold lexYX; exact inferInstance

instance : IsTotal Circ lexYX where
  total c d := by unfold lexYX; omega

instance : IsTrans Circ lexYX where
  trans a b c hab hbc := by unfold lexYX at *; omega

/-- Line 78/85 sort key `c[0]`: compare by `x`. -/
def leX (c d : Circ) : Prop := c.x ≤ d.x

instance : DecidableRel leX := fun c d => by unfold leX; exact inferInstance

instance : IsTotal Circ leX where
  total c d := by unfold leX; omega

instance : IsTrans Circ leX where
  trans a b c hab hbc := by unfold leX at *; omega

/-- Line 63: `circle_list.sort(key=lambda c: (c[1], c[0]))` — Python's
`list.sort` is a stable sort, modelled by (stable) insertion sort. -/
def sortYX (l : List Circ) : List Circ := l.insertionSort lexYX

/-- Lines 78/85: `current_row.sort(key=lambda c: c[0])`. -/
def sortX (l : List Circ) : List Circ := l.insertionSort leX

/-- The loop state of the row-grouping loop (lines 66-81): the closed
rows (`rows`, each paired with the `row_y` anchor it was closed with —
the anchor is recorded for specification purposes, the source keeps it
in the loop variable `row_y`), the open row (`current_row`) and the
anchor `row_y` of the open row (`None` before the first circle). -/
structure SeqState where
  rows : List (ℕ × List Circ)
  current : List Circ
  rowY : Option ℕ
deriving Repr

/-- One iteration of the loop at lines 71-81.  The source condition is
`row_y is None or abs(circle[1] - row_y) < y_threshold`; the subtraction
is `uint16` (so wraps modulo `2^16`) and `abs` on an unsigned value is
the identity, hence the `sub16 c.y ry < 30` test. -/
def seqStep (s : SeqState) (c : Circ) : SeqState :=
  match s.rowY with
  | none => { rows := s.rows, current := s.current ++ [c], rowY := some c.y }
  | some ry =>
    if sub16 c.y ry < 30 then
      { rows := s.rows, current := s.current ++ [c], rowY := some ry }
    else
      { rows := s.rows ++ [(ry, sortX s.current)], current := [c], rowY := some c.y }

/-- Lines 84-86: close the final row (`if current_row: ... rows.append`). -/
def closeRows (s : SeqState) : List (ℕ × List Circ) :=
  if s.current = [] then s.rows
  else s.rows ++ [(s.rowY.getD 0, sortX s.current)]

/-- The grouped rows produced from a circle list: sort by `(y, x)`
(line 63), then run the grouping loop (lines 66-86). -/
def rowsOf (l : List Circ) : List (ℕ × List Circ) :=
  closeRows ((sortYX l).foldl seqStep ⟨[], [], none⟩)

/-- Lines 89-91: flatten the rows into `sorted_circles`. -/
def sequenceCircles (l : List Circ) : List Circ :=
  ((rowsOf l).map Prod.snd).flatten

/-! ## Avatar compositor (lines 96-131) -/

/-- A pixel of the loaded `cv2` buffer, in BGRA channel order
(`cv2.imread(..., IMREAD_UNCHANGED)` + `BGR2BGRA` at lines 20-26). -/
structure BGRA where
  b : ℕ
  g : ℕ
  r : ℕ
  a : ℕ
deriving DecidableEq, Repr

/-- An RGBA pixel (the PIL side of the pipeline, line 112 onward). -/
structure RGBA where
  r : ℕ
  g : ℕ
  b : ℕ
  a : ℕ
deriving DecidableEq, Repr

/-- Line 112: `cv2.cvtColor(cropped, cv2.COLOR_BGRA2RGBA)`. -/
def rgbaOfBgra (p : BGRA) : RGBA := ⟨p.r, p.g, p.b, p.a⟩

/-- The loaded source image: `img.shape[1]` = width, `img.shape[0]` =
height, and the BGRA pixel at column `i`, row `j` is `pix i j`. -/
structure Img where
  width : ℕ
  height : ℕ
  pix : ℕ → ℕ → BGRA

/-- Line 102: `x_min = max(0, x - r)` — `x - r` is `uint16`, so it
wraps when `r > x`; `max` with `0` is the identity on the result. -/
def xMin (c : Circ) : ℕ := max 0 (sub16 c.x c.r)

/-- Line 103: `x_max = min(img.shape[1], x + r)` (the `+` is `uint16`,
the `min` is python `min` against the untruncated width). -/
def xMax (img : Img) (c : Circ) : ℕ := min img.width (add16 c.x c.r)

/-- Line 104: `y_min = max(0, y - r)` (`uint16` subtraction). -/
def yMin (c : Circ) : ℕ := max 0 (sub16 c.y c.r)

/-- Line 105: `y_max = min(img.shape[0], y + r)`. -/
def yMax (img : Img) (c : Circ) : ℕ := min img.height (add16 c.y c.r)

/-- Width of the numpy slice `img[y_min:y_max, x_min:x_max]` (line 108):
empty (width 0) whenever `x_max ≤ x_min`, exactly as numpy slicing. -/
def cropW (img : Img) (c : Circ) : ℕ := xMax img c - xMin c

/-- Height of the numpy slice at line 108. -/
def cropH (img : Img) (c : Circ) : ℕ := yMax img c - yMin c

/-- Line 115: `output_size = (r * 2, r * 2)` — `r` is `uint16`, so the
product wraps modulo `2^16`. -/
def sideLen (c : Circ) : ℕ := (c.r * 2) % U16

/-- Lines 115-116: the output buffer is a `sideLen × sideLen` square. -/
def avatarSize (c : Circ) : ℕ × ℕ := (sideLen c, sideLen c)

/-- Line 124: `paste_x = r - (x - x_min)` (`uint16` subtractions). -/
def pasteX (c : Circ) : ℕ := sub16 c.r (sub16 c.x (xMin c))

/-- Line 125: `paste_y = r - (y - y_min)`. -/
def pasteY (c : Circ) : ℕ := sub16 c.r (sub16 c.y (yMin c))

/-- Lines 119-121: `ImageDraw.ellipse([0, 0, s-1, s-1], fill=255)` on an
`s × s` zero-initialized `L` buffer.  PIL's bounding box is inclusive of
both corners, so the drawn disc spans the whole `s`-pixel square: its
continuous center is `(s/2, s/2)` and its radius `s/2`.  A pixel `(i,j)`
is filled exactly when its center `(i+1/2, j+1/2)` lies in that closed
disc; clearing denominators: `(2i+1-s)² + (2j+1-s)² ≤ s²`. -/
def maskAlpha (s : ℕ) (i j : ℕ) : ℕ :=
  if ((2 * i + 1 : ℤ) - s) ^ 2 + ((2 * j + 1 : ℤ) - s) ^ 2 ≤ (s : ℤ) ^ 2 then 255
  else 0

/-- Line 128: `output_img.paste(pil_img, (paste_x, paste_y))` over the
transparent square of line 116.  Pixel `(i,j)` of the output receives
the cropped pixel `(i - paste_x, j - paste_y)` when that is in range of
the crop, and keeps the transparent fill `(0,0,0,0)` otherwise. -/
def pastedPix (img : Img) (c : Circ) (i j : ℕ) : RGBA :=
  if pasteX c ≤ i ∧ i < pasteX c + cropW img c ∧
     pasteY c ≤ j ∧ j < pasteY c + cropH img c then
    rgbaOfBgra (img.pix (xMin c + (i - pasteX c)) (yMin c + (j - pasteY c)))
  else ⟨0, 0, 0, 0⟩

/-- Line 131: `output_img.putalpha(mask_output)` replaces the whole
alpha channel with the circular mask, regardless of what was pasted. -/
def avatarPix (img : Img) (c : Circ) (i j : ℕ) : RGBA :=
  let p := pastedPix img c i j
  ⟨p.r, p.g, p.b, maskAlpha (sideLen c) i j⟩

/-- The alpha channel of the composited avatar. -/
def avatarAlpha (img : Img) (c : Circ) (i j : ℕ) : ℕ := (avatarPix img c i j).a

/-- The reading of claim C1: pixel `(i,j)` of a `2r × 2r` square lies
inside the circle of radius `r` centered in the square, sampling the
pixel at its center `(i+1/2, j+1/2)` against the center `(r, r)`. -/
def insideCircle (r i j : ℕ) : Prop :=
  ((2 * i + 1 : ℤ) - 2 * r) ^ 2 + ((2 * j + 1 : ℤ) - 2 * r) ^ 2 < (2 * r : ℤ) ^ 2

instance (r i j : ℕ) : Decidable (insideCircle r i j) := by
  unfold insideCircle; exact inferInstance

/-! ## Detection strategy combination (lines 38-53) and fallback
(`detect_circles_alternative`, lines 145-173) -/

/-- Lines 49-51: `circles = HoughCircles(...)`; `if circles is None:
circles = detect_circles_alternative(gray)`.  `none` models the `None`
result of either detector. -/
def detectCircles (primary fallback : Option (List CircF)) : Option (List CircF) :=
  match primary with
  | some cs => some cs
  | none => fallback

/-- A contour found at line 154, together with the quantities the code
derives from it: `cv2.contourArea` (line 159), `cv2.arcLength`
(line 167) and the `cv2.minEnclosingCircle` radius (line 164), all
modelled as reals. -/
structure Contour where
  area : ℝ
  perimeter : ℝ
  radius : ℝ

/-- Lines 160-168: a contour is appended to `circles` when it survives
`if area < 1000: continue` and satisfies
`circularity > 0.7 and 40 < radius < 70` with
`circularity = 4 * np.pi * area / perimeter ** 2`. -/
def altAccepts (c : Contour) : Prop :=
  ¬ c.area < 1000 ∧
  4 * Real.pi * c.area / c.perimeter ^ 2 > 0.7 ∧
  40 < c.radius ∧ c.radius < 70

/-- Claim C5's reading of the same test, with a closed radius interval
`[40, 70]` (this is what the spec sentence asserts). -/
def claimAcceptsC5 (c : Contour) : Prop :=
  1000 ≤ c.area ∧
  4 * Real.pi * c.area / c.perimeter ^ 2 > 0.7 ∧
  40 ≤ c.radius ∧ c.radius ≤ 70

/-- The filtering loop of lines 156-169 as a relation between the input
contour list and the accepted output list (a relation because the
acceptance test is real-valued, hence not Lean-decidable). -/
def altFilter : List Contour → List Contour → Prop
  | [], out => out = []
  | c :: cs, out =>
      (altAccepts c ∧ ∃ rest, altFilter cs rest ∧ out = c :: rest) ∨
      (¬ altAccepts c ∧ altFilter cs out)

/-! ## Filesystem effects of `extract_avatars_from_grid` -/

/-- A filesystem action the function performs, in order. -/
inductive FSEffect where
  | mkdirP (path : String)
  | writeFile (path : String)
deriving DecidableEq, Repr

/-- Line 134: `os.path.join(output_folder, f'avatar_{idx}.png')`. -/
def avatarPath (folder : String) (idx : ℕ) : String :=
  folder ++ "/avatar_" ++ toString idx ++ ".png"

/-- The result (`True`/`False`, lines 140/143) and ordered filesystem
effects of `extract_avatars_from_grid`, as a function of the two
detector outcomes and the output folder: line 17 runs
`Path(output_folder).mkdir(parents=True, exist_ok=True)` first; if both
detectors return `None` the function prints and returns `False`
(lines 138-140) without writing anything; otherwise it writes
`avatar_<idx>.png` for `idx = 1..n` over the sequenced circles
(lines 96, 134-135) and returns `True`. -/
def runPipeline (primary fallback : Option (List CircF)) (folder : String) :
    Bool × List FSEffect :=
  match detectCircles primary fallback with
  | some cs =>
      let seq := sequenceCircles (cs.map roundCirc)
      (true, FSEffect.mkdirP folder ::
        (List.range seq.length).map (fun i => FSEffect.writeFile (avatarPath folder (i + 1))))
  | none => (false, [FSEffect.mkdirP folder])

/-! ## Specification predicates for the sequencer -/

/-- Well-formedness of a closed row `(anchor, members)`: members are in
ascending `x` order, every member's `y` is within the threshold `30`
above the anchor, and the anchor `y` belongs to some member. -/
def RowOK (p : ℕ × List Circ) : Prop :=
  (p.2.Pairwise fun a b => a.x ≤ b.x) ∧
  (∀ c ∈ p.2, p.1 ≤ c.y ∧ c.y - p.1 < 30) ∧
  (∃ c ∈ p.2, c.y = p.1)

/-- Invariant of the row-grouping loop state. -/
structure SInv (s : SeqState) : Prop where
  rows_ok : ∀ p ∈ s.rows, RowOK p
  gap : List.Chain' (fun a b => a + 30 ≤ b) (s.rows.map Prod.fst)
  none_init : s.rowY = none → s.current = [] ∧ s.rows = []
  curY_lt : ∀ ry, s.rowY = some ry → ry < U16
  cur_bound : ∀ ry, s.rowY = some ry → ∀ c ∈ s.current, ry ≤ c.y ∧ c.y - ry < 30
  cur_anchor : ∀ ry, s.rowY = some ry → ∃ c ∈ s.current, c.y = ry
  rows_le : ∀ ry, s.rowY = some ry → ∀ a ∈ s.rows.map Prod.fst, a + 30 ≤ ry

/-! ## Theorems -/

/-- The `uint16` subtraction agrees with natural subtraction when no
wraparound occurs. -/
theorem sub16_eq_sub (a b : ℕ) (hb : b ≤ a) (ha : a < U16) : sub16 a b = a - b := by
  unfold sub16 U16 at *
  omega

/-- C4 (evaluation at the failing input): for the circle
`(x, y, r) = (10, 100, 40)` on a `200 × 200` image — a circle whose
center is closer to the left edge than its radius — the `uint16`
subtraction `x - r` wraps to `65506`, so `x_min = 65506 > 50 = x_max`
and the crop region `img[y_min:y_max, x_min:x_max]` is empty, not the
valid non-empty region the claim asserts. -/
theorem bbox_empty_crop_at_edge :
    xMin ⟨10, 100, 40⟩ = 65506 ∧
    xMax ⟨200, 200, fun _ _ => ⟨0, 0, 0, 0⟩⟩ ⟨10, 100, 40⟩ = 50 ∧
    cropW ⟨200, 200, fun _ _ => ⟨0, 0, 0, 0⟩⟩ ⟨10, 100, 40⟩ = 0 := by
  refine ⟨by decide, by decide, by decide⟩

/-- C8 (evaluation at the failing input): for the circle
`(x, y, r) = (20, 100, 50)` clamped by the left image edge, the claim's
formula `r - (x - x_min)` with the clamped `x_min = max(0, x - r) = 0`
gives paste offset `30`, but the code's `uint16` arithmetic produces
`x_min = 65506` and paste offset `0`, so the content is not centered. -/
theorem paste_offset_at_clamped_edge :
    pasteX ⟨20, 100, 50⟩ = 0 ∧
    (50 : ℤ) - (20 - max 0 ((20 : ℤ) - 50)) = 30 ∧
    (pasteX ⟨20, 100, 50⟩ : ℤ) ≠ (50 : ℤ) - (20 - max 0 ((20 : ℤ) - 50)) := by
  refine ⟨by decide, by decide, by decide⟩

/-- C6: the fallback result is consulted exactly when the primary
detector returns `None`; when the primary returns circles, the fallback
result is irrelevant and the primary's circles are the ones that get
rounded, sequenced and composited into the written avatar files. -/
theorem primary_first_nonempty_wins (cs : List CircF) (fb fb' : Option (List CircF))
    (folder : String) :
    detectCircles (some cs) fb = some cs ∧
    detectCircles (some cs) fb = detectCircles (some cs) fb' ∧
    detectCircles none fb = fb ∧
    runPipeline (some cs) fb folder = runPipeline (some cs) fb' folder ∧
    (runPipeline (some cs) fb folder).2 =
      FSEffect.mkdirP folder ::
        (List.range (sequenceCircles (cs.map roundCirc)).length).map
          (fun i => FSEffect.writeFile (avatarPath folder (i + 1))) :=
  ⟨rfl, rfl, rfl, rfl, rfl⟩

/-- C7: when both detectors return `None`, the pipeline returns the
typed failure value `False` (no exception is modelled because every
step of this branch is total) and performs no file write: its only
filesystem effect is the initial `mkdir` of the output folder. -/
theorem no_avatars_clean_outcome (folder : String) :
    (runPipeline none none folder).1 = false ∧
    ∀ e ∈ (runPipeline none none folder).2, ∀ p, e ≠ FSEffect.writeFile p := by
  refine ⟨rfl, ?_⟩
  intro e he p
  simp only [runPipeline, detectCircles, List.mem_singleton] at he
  subst he
  simp

/-- Witness for C7 at the concrete folder `avatars`. -/
theorem no_avatars_clean_outcome_w :
    FSEffect.mkdirP "avatars" ∈ (runPipeline none none "avatars").2 ∧
    FSEffect.mkdirP "avatars" ≠ FSEffect.writeFile "avatars/avatar_1.png" :=
  ⟨by simp [runPipeline, detectCircles],
   (no_avatars_clean_outcome "avatars").2 _ (by simp [runPipeline, detectCircles]) _⟩

/-- C9 (counterexample): `extract_avatars_from_grid` does create the
output directory — `Path(output_folder).mkdir(parents=True,
exist_ok=True)` at line 17 is its first filesystem effect, performed
even when no circle is detected. -/
theorem mkdir_effect_present :
    (runPipeline none none "avatars").2.head? = some (FSEffect.mkdirP "avatars") ∧
    FSEffect.mkdirP "avatars" ∈ (runPipeline (some [⟨50, 60, 45⟩]) none "avatars").2 := by
  refine ⟨rfl, ?_⟩
  simp [runPipeline, detectCircles]

/-- C9 (amended): the function itself creates the output directory (with
`parents=True, exist_ok=True`) as its first filesystem action, and every
other filesystem effect it performs is a write of `avatar_<i>.png`
inside that output directory. -/
theorem pipeline_effects_confined (primary fallback : Option (List CircF)) (folder : String) :
    (runPipeline primary fallback folder).2.head? = some (FSEffect.mkdirP folder) ∧
    ∀ e ∈ (runPipeline primary fallback folder).2,
      e = FSEffect.mkdirP folder ∨ ∃ i, e = FSEffect.writeFile (avatarPath folder i) := by
  cases h : detectCircles primary fallback with
  | none =>
      refine ⟨by simp [runPipeline, h], ?_⟩
      intro e he
      simp only [runPipeline, h, List.mem_singleton] at he
      exact Or.inl he
  | some cs =>
      refine ⟨by simp [runPipeline, h], ?_⟩
      intro e he
      simp only [runPipeline, h, List.mem_cons, List.mem_map, List.mem_range] at he
      rcases he with he | ⟨i, _, he⟩
      · exact Or.inl he
      · exact Or.inr ⟨i + 1, he.symm⟩

/-- Witness for C9's amended theorem: the write of the first avatar file
is one of the allowed in-folder effects. -/
theorem pipeline_effects_confined_w :
    FSEffect.writeFile "avatars/avatar_1.png" ∈
      (runPipeline (some [⟨50, 60, 45⟩]) none "avatars").2 ∧
    (FSEffect.writeFile "avatars/avatar_1.png" = FSEffect.mkdirP "avatars" ∨
      ∃ i, FSEffect.writeFile "avatars/avatar_1.png" =
        FSEffect.writeFile (avatarPath "avatars" i)) := by
  have hm : FSEffect.writeFile "avatars/avatar_1.png" ∈
      (runPipeline (some [⟨50, 60, 45⟩]) none "avatars").2 := by decide
  exact ⟨hm, (pipeline_effects_confined (some [⟨50, 60, 45⟩]) none "avatars").2 _ hm⟩

/-- C5 (counterexample): a near-circular contour with area `5000`,
perimeter `252` and minimal-enclosing-circle radius exactly `40` satisfies the claim's
closed-interval acceptance predicate (`[40, 70]`), but the code rejects
it: the test at line 168 is the strict `40 < radius < 70`. -/
theorem fallback_closed_interval_counterexample :
    claimAcceptsC5 ⟨5000, 252, 40⟩ ∧ ¬ altAccepts ⟨5000, 252, 40⟩ := by
  constructor
  · refine ⟨by norm_num, ?_, by norm_num, by norm_num⟩
    show (4 : ℝ) * Real.pi * 5000 / 252 ^ 2 > 0.7
    rw [gt_iff_lt, lt_div_iff₀ (by norm_num)]
    nlinarith [Real.pi_gt_three]
  · intro h
    exact absurd h.2.2.1 (lt_irrefl (40 : ℝ))

/-- C5 (amended): the fallback loop keeps a contour exactly when its
area is at least `1000`, its circularity `4π·area/perimeter²` exceeds
`0.7`, and its radius lies in the OPEN interval `(40, 70)`; the output
contains exactly the accepted input contours. -/
theorem fallback_acceptance_characterization (cs out : List Contour) (h : altFilter cs out) :
    (∀ c, altAccepts c ↔
      (1000 ≤ c.area ∧ 4 * Real.pi * c.area / c.perimeter ^ 2 > 0.7 ∧
        c.radius ∈ Set.Ioo (40 : ℝ) 70)) ∧
    (∀ c ∈ out, c ∈ cs ∧ altAccepts c) ∧
    (∀ c ∈ cs, altAccepts c → c ∈ out) := by
  have key : ∀ cs out, altFilter cs out →
      (∀ c ∈ out, c ∈ cs ∧ altAccepts c) ∧ (∀ c ∈ cs, altAccepts c → c ∈ out) := by
    intro cs
    induction cs with
    | nil =>
        intro out h
        simp only [altFilter] at h
        subst h
        simp
    | cons a t ih =>
        intro out h
        simp only [altFilter] at h
        rcases h with ⟨hacc, rest, hrest, rfl⟩ | ⟨hnacc, hfil⟩
        · obtain ⟨h1, h2⟩ := ih rest hrest
          constructor
          · intro c hc
            rcases List.mem_cons.mp hc with rfl | hc
            · exact ⟨List.mem_cons_self _ _, hacc⟩
            · exact ⟨List.mem_cons_of_mem _ (h1 c hc).1, (h1 c hc).2⟩
          · intro c hc hca
            rcases List.mem_cons.mp hc with rfl | hc
            · exact List.mem_cons_self _ _
            · exact List.mem_cons_of_mem _ (h2 c hc hca)
        · obtain ⟨h1, h2⟩ := ih out hfil
          constructor
          · intro c hc
            exact ⟨List.mem_cons_of_mem _ (h1 c hc).1, (h1 c hc).2⟩
          · intro c hc hca
            rcases List.mem_cons.mp hc with rfl | hc
            · exact absurd hca hnacc
            · exact h2 c hc hca
  refine ⟨fun c => ?_, (key cs out h).1, (key cs out h).2⟩
  simp [altAccepts, Set.mem_Ioo, not_lt, and_assoc]

/-- Witness for C5's amended theorem: the singleton contour list with an
in-range contour filters to itself. -/
theorem fallback_acceptance_characterization_w :
    altFilter [⟨7000, 300, 50⟩] [⟨7000, 300, 50⟩] ∧
    ((⟨7000, 300, 50⟩ : Contour) ∈ ([⟨7000, 300, 50⟩] : List Contour) ∧
      altAccepts ⟨7000, 300, 50⟩) := by
  have hacc : altAccepts (⟨7000, 300, 50⟩ : Contour) := by
    refine ⟨by norm_num, ?_, by norm_num, by norm_num⟩
    show (4 : ℝ) * Real.pi * 7000 / 300 ^ 2 > 0.7
    rw [gt_iff_lt, lt_div_iff₀ (by norm_num)]
    nlinarith [Real.pi_gt_three]
  have hf : altFilter [⟨7000, 300, 50⟩] [⟨7000, 300, 50⟩] :=
    Or.inl ⟨hacc, [], rfl, rfl⟩
  exact ⟨hf, (fallback_acceptance_characterization _ _ hf).2.1 _ (List.mem_cons_self _ _)⟩

/-- C10: the pipeline's conversion and geometry are `uint16`:
`np.around` rounds to a nearest integer (within one half, ties to even),
the cast reduces modulo `2^16`, `uint16` subtraction and addition are
modulo-`2^16`, the rounded circle parameters are `uint16` values, and
the avatar is a square whose side `(r * 2) mod 2^16` is always even. -/
theorem uint16_geometry (q : ℚ) (hq : 0 ≤ q) (a b : ℕ) (ha : a < U16) (hb : b < U16)
    (c : Circ) (cf : CircF) :
    |((roundHalfEven q : ℤ) : ℚ) - q| ≤ 1 / 2 ∧
    (toUint16 q : ℤ) = roundHalfEven q % 65536 ∧
    (sub16 a b : ℤ) = ((a : ℤ) - b) % 65536 ∧
    (add16 a b : ℤ) = ((a : ℤ) + b) % 65536 ∧
    (roundCirc cf).x < U16 ∧ (roundCirc cf).y < U16 ∧ (roundCirc cf).r < U16 ∧
    sideLen c % 2 = 0 ∧
    avatarSize c = (sideLen c, sideLen c) := by
  have hfl : ((⌊q⌋ : ℤ) : ℚ) ≤ q := Int.floor_le q
  have hfu : q < (⌊q⌋ : ℤ) + 1 := Int.lt_floor_add_one q
  refine ⟨?_, ?_, ?_, ?_, ?_, ?_, ?_, ?_, rfl⟩
  · unfold roundHalfEven
    by_cases h1 : q - ⌊q⌋ < 1 / 2
    · rw [if_pos h1, abs_le]
      constructor <;> push_cast <;> linarith
    · rw [if_neg h1]
      by_cases h2 : 1 / 2 < q - ⌊q⌋
      · rw [if_pos h2, abs_le]
        constructor <;> push_cast <;> linarith
      · rw [if_neg h2]
        by_cases h3 : ⌊q⌋ % 2 = 0
        · rw [if_pos h3, abs_le]
          constructor <;> push_cast <;> linarith
        · rw [if_neg h3, abs_le]
          constructor <;> push_cast <;> linarith
  · have h0 : 0 ≤ roundHalfEven q := by
      have hf0 : (0 : ℤ) ≤ ⌊q⌋ := Int.floor_nonneg.mpr hq
      unfold roundHalfEven
      by_cases h1 : q - ⌊q⌋ < 1 / 2
      · rw [if_pos h1]; omega
      · rw [if_neg h1]
        by_cases h2 : 1 / 2 < q - ⌊q⌋
        · rw [if_pos h2]; omega
        · rw [if_neg h2]
          by_cases h3 : ⌊q⌋ % 2 = 0
          · rw [if_pos h3]; omega
          · rw [if_neg h3]; omega
    unfold toUint16 U16
    omega
  · unfold sub16 U16 at *
    omega
  · unfold add16 U16 at *
    omega
  · exact Nat.mod_lt _ (by norm_num [U16])
  · exact Nat.mod_lt _ (by norm_num [U16])
  · exact Nat.mod_lt _ (by norm_num [U16])
  · unfold sideLen U16
    omega

/-- Witness for C10 at `q = 5/2` (note `np.around(2.5) = 2`),
`a = 10`, `b = 40`. -/
theorem uint16_geometry_w :
    ((0 : ℚ) ≤ 5 / 2 ∧ 10 < U16 ∧ 40 < U16) ∧
    (|((roundHalfEven (5 / 2) : ℤ) : ℚ) - 5 / 2| ≤ 1 / 2 ∧
      (toUint16 (5 / 2) : ℤ) = roundHalfEven (5 / 2) % 65536 ∧
      (sub16 10 40 : ℤ) = ((10 : ℤ) - 40) % 65536 ∧
      (add16 10 40 : ℤ) = ((10 : ℤ) + 40) % 65536 ∧
      (roundCirc ⟨1 / 2, 3 / 2, 5 / 2⟩).x < U16 ∧
      (roundCirc ⟨1 / 2, 3 / 2, 5 / 2⟩).y < U16 ∧
      (roundCirc ⟨1 / 2, 3 / 2, 5 / 2⟩).r < U16 ∧
      sideLen ⟨10, 20, 30⟩ % 2 = 0 ∧
      avatarSize ⟨10, 20, 30⟩ = (sideLen ⟨10, 20, 30⟩, sideLen ⟨10, 20, 30⟩)) :=
  ⟨⟨by norm_num, by norm_num [U16], by norm_num [U16]⟩,
    uint16_geometry (5 / 2) (by norm_num) 10 40 (by norm_num [U16]) (by norm_num [U16])
      ⟨10, 20, 30⟩ ⟨1 / 2, 3 / 2, 5 / 2⟩⟩

/-- A sum of two odd squares is never the square of an even number
(it is `2 mod 4`), so no pixel center lies exactly on the mask circle. -/
theorem odd_sq_add_odd_sq_ne_even_sq (k m r : ℤ) :
    (2 * k + 1) ^ 2 + (2 * m + 1) ^ 2 ≠ (2 * r) ^ 2 := by
  intro h
  have hdvd : (4 : ℤ) ∣ 2 :=
    ⟨r * r - (k * k + k + (m * m + m)), by linear_combination h⟩
  norm_num at hdvd

/-- C1: for a circle with radius `r` whose bounding box lies fully
inside the image, the composited avatar is exactly `2r × 2r`, and its
alpha channel is `255` at every pixel inside the circle of radius `r`
centered in the square (pixel centers sampled against the square's
center) and `0` at every pixel outside it. -/
theorem avatar_alpha_circle (img : Img) (c : Circ)
    (hr : 0 < c.r) (hs : 2 * c.r < U16)
    (hx1 : c.r ≤ c.x) (hx2 : c.x + c.r ≤ img.width)
    (hy1 : c.r ≤ c.y) (hy2 : c.y + c.r ≤ img.height)
    (hxu : c.x + c.r < U16) (hyu : c.y + c.r < U16) :
    avatarSize c = (2 * c.r, 2 * c.r) ∧
    ∀ i j, i < 2 * c.r → j < 2 * c.r →
      (insideCircle c.r i j → avatarAlpha img c i j = 255) ∧
      (¬ insideCircle c.r i j → avatarAlpha img c i j = 0) := by
  have hside : sideLen c = 2 * c.r := by
    unfold sideLen U16 at *
    omega
  refine ⟨by rw [avatarSize, hside], ?_⟩
  intro i j hi hj
  have halpha : avatarAlpha img c i j = maskAlpha (sideLen c) i j := rfl
  have hne : ((2 * (i : ℤ) + 1) - 2 * c.r) ^ 2 + ((2 * (j : ℤ) + 1) - 2 * c.r) ^ 2 ≠
      (2 * (c.r : ℤ)) ^ 2 := by
    intro h
    exact odd_sq_add_odd_sq_ne_even_sq ((i : ℤ) - c.r) ((j : ℤ) - c.r) (c.r : ℤ)
      (by linear_combination h)
  rw [halpha, hside]
  unfold maskAlpha insideCircle at *
  constructor
  · intro hin
    rw [if_pos]
    push_cast
    push_cast at hin
    exact le_of_lt hin
  · intro hout
    rw [if_neg]
    push_cast
    push_cast at hout
    intro hle
    exact hout (lt_of_le_of_ne hle hne)

/-- Witness for C1: a radius-3 circle centered at `(5, 5)` in a
`10 × 10` image. -/
theorem avatar_alpha_circle_w :
    (0 < 3 ∧ 2 * 3 < U16 ∧ 3 ≤ 5 ∧ 5 + 3 ≤ 10 ∧ 5 + 3 < U16) ∧
    (avatarSize ⟨5, 5, 3⟩ = (2 * 3, 2 * 3) ∧
      ∀ i j, i < 2 * 3 → j < 2 * 3 →
        (insideCircle 3 i j →
          avatarAlpha ⟨10, 10, fun _ _ => ⟨0, 0, 0, 0⟩⟩ ⟨5, 5, 3⟩ i j = 255) ∧
        (¬ insideCircle 3 i j →
          avatarAlpha ⟨10, 10, fun _ _ => ⟨0, 0, 0, 0⟩⟩ ⟨5, 5, 3⟩ i j = 0)) :=
  ⟨⟨by decide, by decide, by decide, by decide, by decide⟩,
    avatar_alpha_circle ⟨10, 10, fun _ _ => ⟨0, 0, 0, 0⟩⟩ ⟨5, 5, 3⟩ (by decide) (by decide)
      (by decide) (by decide) (by decide) (by decide) (by decide) (by decide)⟩

/-- One grouping step only moves circles between `current` and `rows`
(up to sorting a row): the multiset of circles seen so far grows by
exactly the circle processed. -/
theorem bag_seqStep (s : SeqState) (c : Circ) :
    (((seqStep s c).rows.map Prod.snd).flatten ++ (seqStep s c).current).Perm
      (((s.rows.map Prod.snd).flatten ++ s.current) ++ [c]) := by
  obtain ⟨rows, cur, rowY⟩ := s
  cases rowY with
  | none => simp [seqStep]
  | some ry =>
      by_cases h : sub16 c.y ry < 30
      · simp [seqStep, h]
      · simp only [seqStep, h, if_neg, if_false, List.map_append, List.map_cons,
          List.map_nil, List.flatten_append, List.flatten_cons, List.flatten_nil,
          List.append_nil, List.append_assoc]
        exact List.Perm.append_left _
          (List.Perm.append_right _ (List.perm_insertionSort leX cur))

/-- Folding the grouping loop appends the processed circles to the bag. -/
theorem bag_foldl (l : List Circ) (s : SeqState) :
    (((l.foldl seqStep s).rows.map Prod.snd).flatten ++ (l.foldl seqStep s).current).Perm
      (((s.rows.map Prod.snd).flatten ++ s.current) ++ l) := by
  induction l generalizing s with
  | nil => simp
  | cons c t ih =>
      rw [List.foldl_cons]
      have e : ((((s.rows.map Prod.snd).flatten ++ s.current) ++ [c]) ++ t) =
          (((s.rows.map Prod.snd).flatten ++ s.current) ++ (c :: t)) := by
        simp [List.append_assoc]
      exact (ih (seqStep s c)).trans (e ▸ (bag_seqStep s c).append_right t)

/-- Closing the last row keeps the bag of circles (up to order). -/
theorem bag_closeRows (s : SeqState) :
    (((closeRows s).map Prod.snd).flatten).Perm
      ((s.rows.map Prod.snd).flatten ++ s.current) := by
  obtain ⟨rows, cur, rowY⟩ := s
  unfold closeRows
  by_cases h : cur = []
  · simp [h]
  · simp only [h, if_neg, if_false, List.map_append, List.map_cons, List.map_nil,
      List.flatten_append, List.flatten_cons, List.flatten_nil, List.append_nil]
    exact List.Perm.append_left _ (List.perm_insertionSort leX cur)

/-- C3: sequencing outputs a permutation of its input — the same
circles, none dropped and none duplicated — and in particular a list of
the same length. -/
theorem sequence_preserves_circles (l : List Circ) :
    (sequenceCircles l).Perm l ∧ (sequenceCircles l).length = l.length := by
  have h : (sequenceCircles l).Perm l := by
    unfold sequenceCircles rowsOf
    refine (bag_closeRows _).trans ((bag_foldl (sortYX l) ⟨[], [], none⟩).trans ?_)
    simpa [sortYX] using List.perm_insertionSort lexYX l
  exact ⟨h, h.length_eq⟩

/-- A row sorted by `x` (line 78/85) is in ascending `x` order. -/
theorem sortX_pairwise (l : List Circ) : (sortX l).Pairwise fun a b => a.x ≤ b.x :=
  List.sorted_insertionSort leX l

/-- The `(y, x)`-sorted list (line 63) is in ascending `y` order. -/
theorem sortYX_sorted_y (l : List Circ) : (sortYX l).Pairwise fun c d => c.y ≤ d.y :=
  (List.sorted_insertionSort lexYX l).imp fun hcd => by
    unfold lexYX at hcd
    omega

/-- A step `seqStep` can only keep the current anchor or adopt the new
circle's `y` as anchor. -/
theorem seqStep_rowY (s : SeqState) (c : Circ) (ry : ℕ)
    (h : (seqStep s c).rowY = some ry) : s.rowY = some ry ∨ ry = c.y := by
  obtain ⟨rows, cur, rowY⟩ := s
  cases rowY with
  | none =>
      right
      simp only [seqStep] at h
      exact (Option.some_inj.mp h).symm
  | some ry₀ =>
      by_cases hlt : sub16 c.y ry₀ < 30
      · left
        simp only [seqStep, hlt, if_pos] at h
        exact h
      · right
        simp only [seqStep, hlt, if_neg, if_false] at h
        exact (Option.some_inj.mp h).symm

/-- The grouping loop body preserves the invariant, provided the new
circle's `y` is a `uint16` value not below the current anchor. -/
theorem seqStep_inv (s : SeqState) (c : Circ) (hs : SInv s) (hcU : c.y < U16)
    (hlow : ∀ ry, s.rowY = some ry → ry ≤ c.y) : SInv (seqStep s c) := by
  obtain ⟨rows, cur, rowY⟩ := s
  cases rowY with
  | none =>
      obtain ⟨hc0, hr0⟩ := hs.none_init rfl
      simp only at hc0 hr0
      subst hc0 hr0
      refine ⟨?_, ?_, ?_, ?_, ?_, ?_, ?_⟩ <;>
        simp only [seqStep, List.nil_append]
      · intro p hp
        exact absurd hp (List.not_mem_nil p)
      · simp
      · intro h
        exact nomatch h
      · intro ry h
        rw [← Option.some_inj.mp h]
        exact hcU
      · intro ry h c' hc'
        rw [List.mem_singleton.mp hc', ← Option.some_inj.mp h]
        omega
      · intro ry h
        exact ⟨c, List.mem_singleton.mpr rfl, Option.some_inj.mp h⟩
      · intro ry h a ha
        exact absurd ha (by simp)
  | some ry₀ =>
      have hryc : ry₀ ≤ c.y := hlow ry₀ rfl
      have hryU : ry₀ < U16 := hs.curY_lt ry₀ rfl
      have hsub : sub16 c.y ry₀ = c.y - ry₀ := sub16_eq_sub _ _ hryc hcU
      by_cases h : sub16 c.y ry₀ < 30
      · refine ⟨?_, ?_, ?_, ?_, ?_, ?_, ?_⟩ <;> simp only [seqStep, h, if_pos]
        · exact hs.rows_ok
        · exact hs.gap
        · intro hh
          exact nomatch hh
        · intro ry hh
          rw [← Option.some_inj.mp hh]
          exact hryU
        · intro ry hh c' hc'
          rw [← Option.some_inj.mp hh]
          rcases List.mem_append.mp hc' with hc' | hc'
          · exact hs.cur_bound ry₀ rfl c' hc'
          · rw [List.mem_singleton.mp hc']
            omega
        · intro ry hh
          obtain ⟨c', hm, he⟩ := hs.cur_anchor ry₀ rfl
          exact ⟨c', List.mem_append_left _ hm, by rw [← Option.some_inj.mp hh]; exact he⟩
        · intro ry hh a ha
          rw [← Option.some_inj.mp hh]
          exact hs.rows_le ry₀ rfl a ha
      · have h30 : ry₀ + 30 ≤ c.y := by omega
        refine ⟨?_, ?_, ?_, ?_, ?_, ?_, ?_⟩ <;> simp only [seqStep, h, if_neg, if_false]
        · intro p hp
          rcases List.mem_append.mp hp with hp | hp
          · exact hs.rows_ok p hp
          · rw [List.mem_singleton.mp hp]
            refine ⟨sortX_pairwise _, ?_, ?_⟩
            · intro c' hc'
              exact hs.cur_bound ry₀ rfl c'
                ((List.perm_insertionSort leX cur).mem_iff.mp hc')
            · obtain ⟨c', hm, he⟩ := hs.cur_anchor ry₀ rfl
              exact ⟨c', (List.perm_insertionSort leX cur).mem_iff.mpr hm, he⟩
        · rw [List.map_append]
          refine List.chain'_append.mpr ⟨hs.gap, by simp, ?_⟩
          intro a ha y hy
          simp only [List.map_cons, List.map_nil, List.head?_cons, Option.mem_def,
            Option.some_inj] at hy
          rw [← hy]
          exact hs.rows_le ry₀ rfl a (List.mem_of_mem_getLast? ha)
        · intro hh
          exact nomatch hh
        · intro ry hh
          rw [← Option.some_inj.mp hh]
          exact hcU
        · intro ry hh c' hc'
          rw [List.mem_singleton.mp hc', ← Option.some_inj.mp hh]
          omega
        · intro ry hh
          exact ⟨c, List.mem_singleton.mpr rfl, Option.some_inj.mp hh⟩
        · intro ry hh a ha
          rw [← Option.some_inj.mp hh]
          rw [List.map_append] at ha
          rcases List.mem_append.mp ha with ha' | ha'
          · have := hs.rows_le ry₀ rfl a ha'
            omega
          · simp only [List.map_cons, List.map_nil, List.mem_singleton] at ha'
            omega

/-- The full grouping loop preserves the invariant when fed a
`y`-ascending list of `uint16` circles whose `y` values are not below
the current anchor. -/
theorem foldl_inv (l : List Circ) (s : SeqState)
    (hwf : ∀ c ∈ l, c.y < U16)
    (hsorted : l.Pairwise fun c d => c.y ≤ d.y)
    (hs : SInv s)
    (hlow : ∀ ry, s.rowY = some ry → ∀ c ∈ l, ry ≤ c.y) :
    SInv (l.foldl seqStep s) := by
  induction l generalizing s with
  | nil => simpa using hs
  | cons c t ih =>
      rw [List.foldl_cons]
      have hcU : c.y < U16 := hwf c (List.mem_cons_self _ _)
      have hstep : SInv (seqStep s c) :=
        seqStep_inv s c hs hcU fun ry hry => hlow ry hry c (List.mem_cons_self _ _)
      apply ih (seqStep s c)
      · intro c' hc'
        exact hwf c' (List.mem_cons_of_mem _ hc')
      · exact (List.pairwise_cons.mp hsorted).2
      · exact hstep
      · intro ry hry c' hc'
        have hcc' : c.y ≤ c'.y := (List.pairwise_cons.mp hsorted).1 c' hc'
        rcases seqStep_rowY s c ry hry with hold | hnew
        · exact le_trans (hlow ry hold c (List.mem_cons_self _ _)) hcc'
        · rw [hnew]
          exact hcc'

/-- After closing the final row, all rows are well-formed and the
anchors are separated by at least the threshold. -/
theorem closeRows_props (s : SeqState) (hs : SInv s) :
    (∀ p ∈ closeRows s, RowOK p) ∧
    List.Chain' (fun a b => a + 30 ≤ b) ((closeRows s).map Prod.fst) := by
  obtain ⟨rows, cur, rowY⟩ := s
  unfold closeRows
  by_cases hc : cur = []
  · simp only [hc, if_pos]
    exact ⟨hs.rows_ok, hs.gap⟩
  · simp only [hc, if_neg, if_false]
    cases hrw : rowY with
    | none =>
        obtain ⟨h1, -⟩ := hs.none_init hrw
        exact absurd h1 hc
    | some ry =>
        simp only [Option.getD_some]
        constructor
        · intro p hp
          rcases List.mem_append.mp hp with hp | hp
          · exact hs.rows_ok p hp
          · rw [List.mem_singleton.mp hp]
            refine ⟨sortX_pairwise _, ?_, ?_⟩
            · intro c' hc'
              exact hs.cur_bound ry hrw c'
                ((List.perm_insertionSort leX cur).mem_iff.mp hc')
            · obtain ⟨c', hm, he⟩ := hs.cur_anchor ry hrw
              exact ⟨c', (List.perm_insertionSort leX cur).mem_iff.mpr hm, he⟩
        · rw [List.map_append]
          refine List.chain'_append.mpr ⟨hs.gap, by simp, ?_⟩
          intro a ha y hy
          simp only [List.map_cons, List.map_nil, List.head?_cons, Option.mem_def,
            Option.some_inj] at hy
          rw [← hy]
          exact hs.rows_le ry hrw a (List.mem_of_mem_getLast? ha)

/-- C2: the sequencer sorts by `(y, x)`, then groups: within each
row-group the circles appear in ascending `x` order; each member's `y`
differs from its row's anchor `y` (the `y` of the first circle placed
in that row, which the anchor index records) by strictly less than the
threshold `30`; consecutive row anchors are at least `30` apart, so the
row-groups — and hence circles of different row-groups — appear in
strictly ascending anchor-`y` order; the output is the concatenation of
the row-groups. -/
theorem sequencer_row_order (l : List Circ) (hwf : ∀ c ∈ l, c.y < U16) :
    (∀ p ∈ rowsOf l,
      (p.2.Pairwise fun a b => a.x ≤ b.x) ∧
      (∀ c ∈ p.2, p.1 ≤ c.y ∧ c.y - p.1 < 30) ∧
      (∃ c ∈ p.2, c.y = p.1)) ∧
    List.Chain' (fun a b => a + 30 ≤ b) ((rowsOf l).map Prod.fst) ∧
    ((rowsOf l).map Prod.fst).Pairwise (· < ·) ∧
    sequenceCircles l = ((rowsOf l).map Prod.snd).flatten := by
  have hwf' : ∀ c ∈ sortYX l, c.y < U16 := fun c hc =>
    hwf c ((List.perm_insertionSort lexYX l).mem_iff.mp hc)
  have hinit : SInv ⟨[], [], none⟩ := by
    refine ⟨?_, ?_, ?_, ?_, ?_, ?_, ?_⟩
    · intro p hp
      exact absurd hp (List.not_mem_nil p)
    · simp
    · intro h
      exact ⟨rfl, rfl⟩
    · intro ry h
      exact nomatch h
    · intro ry h
      exact nomatch h
    · intro ry h
      exact nomatch h
    · intro ry h
      exact nomatch h
  have hinv : SInv ((sortYX l).foldl seqStep ⟨[], [], none⟩) :=
    foldl_inv (sortYX l) ⟨[], [], none⟩ hwf' (sortYX_sorted_y l) hinit
      (fun ry h => nomatch h)
  obtain ⟨h1, h2⟩ := closeRows_props _ hinv
  refine ⟨h1, h2, ?_, rfl⟩
  haveI : IsTrans ℕ fun a b => a + 30 ≤ b := ⟨fun a b c h1 h2 => by omega⟩
  exact (List.chain'_iff_pairwise.mp h2).imp fun h => by omega

/-- Witness for C2 on a concrete list with two row-groups. -/
theorem sequencer_row_order_w :
    (∀ c ∈ ([⟨300, 100, 40⟩, ⟨100, 110, 40⟩, ⟨100, 200, 40⟩] : List Circ), c.y < U16) ∧
    ((∀ p ∈ rowsOf [⟨300, 100, 40⟩, ⟨100, 110, 40⟩, ⟨100, 200, 40⟩],
        (p.2.Pairwise fun a b => a.x ≤ b.x) ∧
        (∀ c ∈ p.2, p.1 ≤ c.y ∧ c.y - p.1 < 30) ∧
        (∃ c ∈ p.2, c.y = p.1)) ∧
      List.Chain' (fun a b => a + 30 ≤ b)
        ((rowsOf [⟨300, 100, 40⟩, ⟨100, 110, 40⟩, ⟨100, 200, 40⟩]).map Prod.fst) ∧
      ((rowsOf [⟨300, 100, 40⟩, ⟨100, 110, 40⟩, ⟨100, 200, 40⟩]).map Prod.fst).Pairwise
        (· < ·) ∧
      sequenceCircles [⟨300, 100, 40⟩, ⟨100, 110, 40⟩, ⟨100, 200, 40⟩] =
        ((rowsOf [⟨300, 100, 40⟩, ⟨100, 110, 40⟩, ⟨100, 200, 40⟩]).map Prod.snd).flatten) :=
  ⟨by decide, sequencer_row_order _ (by decide)⟩

end AvatarGrid
